import Mathlib

/-!
Verification of the gsearch-cli database decoder and search engine
(`internal/db/database.go`, `internal/db/search.go`).

Bytes are modelled as natural numbers (each `< 256` in well-formed input),
byte strings as `List Nat`, and Go strings handled by the matcher as Lean
`String`/`List Char` (one `Char` per rune; valid UTF-8 assumed, which is the
regime of all matcher claims). Go functions that can only fail by
`fmt.Errorf` are modelled with `Except FormatError`, collapsing the
error-message text to the error-taxonomy constructor of the failing path.
-/

/-- Error taxonomy of the load path. `truncated` stands for every
"failed to read ... / block truncated ..." error, `badMagic`,
`unsupportedMajorVersion`, `unsupportedMinorVersion` for the three header
checks, `blockSizeMismatch` for the "block size mismatch" errors, and
`invalidParentIndex` exists so that theorems can state whether any code
path produces it. -/
inductive FormatError where
  | truncated
  | badMagic
  | unsupportedMajorVersion
  | unsupportedMinorVersion
  | invalidParentIndex
  | blockSizeMismatch
deriving DecidableEq, Repr

/-- Byte of a block at an index; Go code only reads in-bounds indices, so the
default 0 is never observed where this is used. -/
def byteAt (l : List Nat) (i : Nat) : Nat := l.getD i 0

/-- `MagicNumber = "FSDB"` as bytes (database.go line 14). -/
def magicNumber : List Nat := [70, 83, 68, 66]

/-- `MajorVersion` (database.go line 15). -/
def majorVersion : Nat := 0

/-- `MinorVersion` (database.go line 16). -/
def minorVersion : Nat := 9

/-- Model of `Database.readDeltaName` (database.go lines 345-372).
Reads a 1-byte shared-prefix length (`nameOffset`, here
`byteAt block offset`) and a 1-byte suffix length (`nameLen`, here
`byteAt block (offset+1)`), truncates `previousName` at the shared-prefix
length (keeping the whole previous name when the declared length is not
`< len(previousName)`), appends the suffix bytes, and returns the new name
together with the cursor after the record. -/
def readDeltaName (block : List Nat) (offset : Nat) (previousName : List Nat) :
    Except FormatError (List Nat × Nat) :=
  if offset + 2 > block.length then .error .truncated
  else if byteAt block (offset + 1) > 0 then
    if offset + 2 + byteAt block (offset + 1) > block.length then .error .truncated
    else .ok ((if byteAt block offset < previousName.length
               then previousName.take (byteAt block offset) else previousName)
              ++ (block.drop (offset + 2)).take (byteAt block (offset + 1)),
              offset + 2 + byteAt block (offset + 1))
  else .ok ((if byteAt block offset < previousName.length
             then previousName.take (byteAt block offset) else previousName),
            offset + 2)

/-- C1: decoding one delta record whose declared shared-prefix length is `p`
and whose declared suffix is the byte list `s` (entirely inside `block`)
yields `previousName[0 : min p (len previousName)] ++ s` and advances the
cursor by exactly `2 + len s` bytes. -/
theorem c1_readDeltaName (block : List Nat) (offset : Nat) (prev : List Nat)
    (p : Nat) (s : List Nat)
    (hlen : offset + 2 + s.length ≤ block.length)
    (hp : byteAt block offset = p)
    (hs : byteAt block (offset + 1) = s.length)
    (hbytes : (block.drop (offset + 2)).take s.length = s) :
    readDeltaName block offset prev =
      .ok (prev.take (min p prev.length) ++ s, offset + (2 + s.length)) := by
  unfold readDeltaName
  rw [hp, hs, hbytes, if_neg (by omega)]
  have hname : (if p < prev.length then prev.take p else prev) =
      prev.take (min p prev.length) := by
    by_cases hc : p < prev.length
    · rw [if_pos hc, Nat.min_eq_left (Nat.le_of_lt hc)]
    · rw [if_neg hc, Nat.min_eq_right (by omega), List.take_length]
  by_cases hz : s.length > 0
  · rw [if_pos hz, if_neg (by omega), hname, Nat.add_assoc]
  · have hnil : s = [] := List.eq_nil_of_length_eq_zero (by omega)
    subst hnil
    simp only [List.length_nil, gt_iff_lt, Nat.lt_irrefl, if_false, hname,
      List.append_nil, Nat.add_zero]

/-- Witness for C1 at a concrete record: block `[2, 3, 97, 98, 99]`,
previous name `[120, 121]` ("xy"), shared-prefix length 2, suffix "abc". -/
theorem c1_readDeltaName_witness :
    readDeltaName [2, 3, 97, 98, 99] 0 [120, 121] =
      .ok ([120, 121].take (min 2 [120, 121].length) ++ [97, 98, 99], 0 + (2 + 3)) :=
  c1_readDeltaName [2, 3, 97, 98, 99] 0 [120, 121] 2 [97, 98, 99]
    (by decide) (by decide) (by decide) (by decide)

/-- Model of `Database.readHeader` (database.go lines 143-169): 4-byte magic
tag compared with `magicNumber`, 1-byte major version compared with
`majorVersion`, 1-byte minor version required `≤ minorVersion`; any short
read fails as truncated. Returns the input after the 6 header bytes. -/
def readHeader (input : List Nat) : Except FormatError (List Nat) :=
  if input.length < 4 then .error .truncated
  else if input.take 4 ≠ magicNumber then .error .badMagic
  else if input.length < 5 then .error .truncated
  else if byteAt input 4 ≠ majorVersion then .error .unsupportedMajorVersion
  else if input.length < 6 then .error .truncated
  else if minorVersion < byteAt input 5 then .error .unsupportedMinorVersion
  else .ok (input.drop 6)

/-- C9: on any input long enough for the 6 header bytes, `readHeader` (and
hence the load, which aborts on its error) fails with `badMagic` exactly when
the 4-byte magic differs from the fixed signature, with
`unsupportedMajorVersion` exactly when the magic is right but the major
version byte differs from the single supported one, with
`unsupportedMinorVersion` exactly when magic and major version are right but
the minor version byte exceeds the highest supported one, and succeeds when
all three checks pass (smaller minor versions accepted). -/
theorem c9_readHeader (input : List Nat) (h : 6 ≤ input.length) :
    (readHeader input = .error .badMagic ↔ input.take 4 ≠ magicNumber) ∧
    (readHeader input = .error .unsupportedMajorVersion ↔
      (input.take 4 = magicNumber ∧ byteAt input 4 ≠ majorVersion)) ∧
    (readHeader input = .error .unsupportedMinorVersion ↔
      (input.take 4 = magicNumber ∧ byteAt input 4 = majorVersion ∧
        minorVersion < byteAt input 5)) ∧
    (input.take 4 = magicNumber → byteAt input 4 = majorVersion →
      byteAt input 5 ≤ minorVersion → readHeader input = .ok (input.drop 6)) := by
  unfold readHeader
  rw [if_neg (by omega)]
  by_cases hm : input.take 4 = magicNumber
  · rw [if_neg (by simpa using hm), if_neg (by omega)]
    by_cases hmaj : byteAt input 4 = majorVersion
    · rw [if_neg (by simpa using hmaj), if_neg (by omega)]
      by_cases hmin : minorVersion < byteAt input 5
      · rw [if_pos hmin]
        refine ⟨by simp [hm], by simp [hmaj], by simp [hm, hmaj, hmin], ?_⟩
        intro _ _ hle
        omega
      · rw [if_neg hmin]
        exact ⟨by simp [hm], by simp [hmaj], by simp [hmin], fun _ _ _ => rfl⟩
    · rw [if_pos (by simpa using hmaj)]
      exact ⟨by simp [hm], by simp [hm, hmaj], by simp [hmaj], fun _ h2 => absurd h2 hmaj⟩
  · rw [if_pos (by simpa using hm)]
    exact ⟨by simp [hm], by simp [hm], by simp [hm], fun h1 => absurd h1 hm⟩

/-- Witness for C9 at a concrete header: magic "FSDB", major 0, minor 9,
followed by one payload byte. -/
theorem c9_readHeader_witness :
    readHeader [70, 83, 68, 66, 0, 9, 42] = .ok [42] :=
  (c9_readHeader [70, 83, 68, 66, 0, 9, 42] (by decide)).2.2.2
    (by decide) (by decide) (by decide)

/-- Little-endian 32-bit read, `binary.LittleEndian.Uint32` on 4 block bytes. -/
def readLE32 (block : List Nat) (off : Nat) : Nat :=
  byteAt block off + 256 * byteAt block (off + 1) +
    65536 * byteAt block (off + 2) + 16777216 * byteAt block (off + 3)

/-- Little-endian 64-bit read, `binary.LittleEndian.Uint64` on 8 block bytes. -/
def readLE64 (block : List Nat) (off : Nat) : Nat :=
  readLE32 block off + 4294967296 * readLE32 block (off + 4)

/-- `int64(uint64 value)`: two's-complement reinterpretation. -/
def toInt64 (v : Nat) : Int :=
  if v < 9223372036854775808 then (v : Int) else (v : Int) - 18446744073709551616

/-- One decoded folder or file record: name bytes, optional size and mtime
(zero-valued when their index flag is off), and the resolved parent
reference (`none` models a nil `Parent` pointer). -/
structure EntryRec where
  name : List Nat
  size : Int
  mtime : Int
  parentIdx : Option Nat
deriving DecidableEq, Repr

/-- One folder record of `Database.loadFolders` (database.go lines 218-268):
2 reserved `db_index` bytes (skipped), delta-compressed name, optional 8-byte
size (iff flag bit 2), optional 8-byte mtime (iff flag bit 3), 4-byte parent
index. The parent pointer is set only when the parent index differs from the
folder's own index `i` and is `< numFolders`; otherwise it stays nil.
Returns the record, the cursor after it, and the new previous-name. -/
def readFolderRecord (flags numFolders : Nat) (block : List Nat) (i : Nat)
    (offset : Nat) (prev : List Nat) :
    Except FormatError (EntryRec × Nat × List Nat) :=
  if offset + 2 > block.length then .error .truncated
  else match readDeltaName block (offset + 2) prev with
    | .error e => .error e
    | .ok (name, off1) =>
      match (if Nat.testBit flags 2 then
               if off1 + 8 > block.length then Except.error FormatError.truncated
               else Except.ok (toInt64 (readLE64 block off1), off1 + 8)
             else Except.ok ((0 : Int), off1)) with
      | .error e => .error e
      | .ok (size, off2) =>
        match (if Nat.testBit flags 3 then
                 if off2 + 8 > block.length then Except.error FormatError.truncated
                 else Except.ok (toInt64 (readLE64 block off2), off2 + 8)
               else Except.ok ((0 : Int), off2)) with
        | .error e => .error e
        | .ok (mtime, off3) =>
          if off3 + 4 > block.length then .error .truncated
          else
            Except.ok
              (⟨name, size, mtime,
                if readLE32 block off3 ≠ i ∧ readLE32 block off3 < numFolders
                then some (readLE32 block off3) else none⟩,
               off3 + 4, name)

/-- One file record of `Database.loadFiles` (database.go lines 288-334):
identical to a folder record but with no reserved 2-byte field, and the
parent pointer is set whenever the parent index is `< numFolders` (no
self-reference exception). -/
def readFileRecord (flags numFolders : Nat) (block : List Nat)
    (offset : Nat) (prev : List Nat) :
    Except FormatError (EntryRec × Nat × List Nat) :=
  match readDeltaName block offset prev with
  | .error e => .error e
  | .ok (name, off1) =>
    match (if Nat.testBit flags 2 then
             if off1 + 8 > block.length then Except.error FormatError.truncated
             else Except.ok (toInt64 (readLE64 block off1), off1 + 8)
           else Except.ok ((0 : Int), off1)) with
    | .error e => .error e
    | .ok (size, off2) =>
      match (if Nat.testBit flags 3 then
               if off2 + 8 > block.length then Except.error FormatError.truncated
               else Except.ok (toInt64 (readLE64 block off2), off2 + 8)
             else Except.ok ((0 : Int), off2)) with
      | .error e => .error e
      | .ok (mtime, off3) =>
        if off3 + 4 > block.length then .error .truncated
        else
          Except.ok
            (⟨name, size, mtime,
              if readLE32 block off3 < numFolders
              then some (readLE32 block off3) else none⟩,
             off3 + 4, name)

/-- Record loop of `Database.loadFolders`: decode `remaining` more records
starting at folder index `i` and cursor `offset`, then require the cursor to
land exactly at the end of the block. -/
def loadFoldersAux (flags numFolders : Nat) (block : List Nat) :
    Nat → Nat → Nat → List Nat → List EntryRec → Except FormatError (List EntryRec)
  | 0, _, offset, _, acc =>
      if offset = block.length then .ok acc.reverse else .error .blockSizeMismatch
  | remaining + 1, i, offset, prev, acc =>
      match readFolderRecord flags numFolders block i offset prev with
      | .error e => .error e
      | .ok (fr, off2, newPrev) =>
          loadFoldersAux flags numFolders block remaining (i + 1) off2 newPrev (fr :: acc)

/-- Model of `Database.loadFolders` (database.go lines 208-275) on an
in-memory folder block: the delta chain starts from the empty previous name. -/
def loadFolders (flags numFolders : Nat) (block : List Nat) :
    Except FormatError (List EntryRec) :=
  loadFoldersAux flags numFolders block numFolders 0 0 [] []

/-- Record loop of `Database.loadFiles`. -/
def loadFilesAux (flags numFolders : Nat) (block : List Nat) :
    Nat → Nat → List Nat → List EntryRec → Except FormatError (List EntryRec)
  | 0, offset, _, acc =>
      if offset = block.length then .ok acc.reverse else .error .blockSizeMismatch
  | remaining + 1, offset, prev, acc =>
      match readFileRecord flags numFolders block offset prev with
      | .error e => .error e
      | .ok (fr, off2, newPrev) =>
          loadFilesAux flags numFolders block remaining off2 newPrev (fr :: acc)

/-- Model of `Database.loadFiles` (database.go lines 277-342) on an in-memory
file block: the delta chain starts again from the empty previous name. -/
def loadFiles (flags numFolders numFiles : Nat) (block : List Nat) :
    Except FormatError (List EntryRec) :=
  loadFilesAux flags numFolders block numFiles 0 [] []

/-- Every error of `readDeltaName` is a truncation error. -/
theorem readDeltaName_error (block : List Nat) (offset : Nat) (prev : List Nat)
    (e : FormatError) (h : readDeltaName block offset prev = .error e) :
    e = .truncated := by
  unfold readDeltaName at h
  split at h
  · exact (Except.error.injEq _ _).mp h |>.symm
  · split at h
    · split at h
      · exact (Except.error.injEq _ _).mp h |>.symm
      · exact absurd h (by simp)
    · exact absurd h (by simp)

/-- Every error of `readFolderRecord` is a truncation error. -/
theorem readFolderRecord_error (flags n : Nat) (block : List Nat) (i offset : Nat)
    (prev : List Nat) (e : FormatError)
    (h : readFolderRecord flags n block i offset prev = .error e) :
    e = .truncated := by
  unfold readFolderRecord at h
  split at h
  · exact (Except.error.injEq _ _).mp h |>.symm
  · split at h
    case _ e2 heq => exact (Except.error.injEq _ _).mp h ▸ readDeltaName_error _ _ _ _ heq
    case _ name off1 heq =>
      split at h
      case _ e2 heq2 =>
        have : e2 = .truncated := by
          split at heq2
          · split at heq2
            · exact (Except.error.injEq _ _).mp heq2 |>.symm
            · exact absurd heq2 (by simp)
          · exact absurd heq2 (by simp)
        exact (Except.error.injEq _ _).mp h ▸ this
      case _ size off2 heq2 =>
        split at h
        case _ e2 heq3 =>
          have : e2 = .truncated := by
            split at heq3
            · split at heq3
              · exact (Except.error.injEq _ _).mp heq3 |>.symm
              · exact absurd heq3 (by simp)
            · exact absurd heq3 (by simp)
          exact (Except.error.injEq _ _).mp h ▸ this
        case _ mtime off3 heq3 =>
          split at h
          · exact (Except.error.injEq _ _).mp h |>.symm
          · exact absurd h (by simp)

/-- Every error of `readFileRecord` is a truncation error. -/
theorem readFileRecord_error (flags n : Nat) (block : List Nat) (offset : Nat)
    (prev : List Nat) (e : FormatError)
    (h : readFileRecord flags n block offset prev = .error e) :
    e = .truncated := by
  unfold readFileRecord at h
  split at h
  case _ e2 heq => exact (Except.error.injEq _ _).mp h ▸ readDeltaName_error _ _ _ _ heq
  case _ name off1 heq =>
    split at h
    case _ e2 heq2 =>
      have : e2 = .truncated := by
        split at heq2
        · split at heq2
          · exact (Except.error.injEq _ _).mp heq2 |>.symm
          · exact absurd heq2 (by simp)
        · exact absurd heq2 (by simp)
      exact (Except.error.injEq _ _).mp h ▸ this
    case _ size off2 heq2 =>
      split at h
      case _ e2 heq3 =>
        have : e2 = .truncated := by
          split at heq3
          · split at heq3
            · exact (Except.error.injEq _ _).mp heq3 |>.symm
            · exact absurd heq3 (by simp)
          · exact absurd heq3 (by simp)
        exact (Except.error.injEq _ _).mp h ▸ this
      case _ mtime off3 heq3 =>
        split at h
        · exact (Except.error.injEq _ _).mp h |>.symm
        · exact absurd h (by simp)

/-- The folder-record loop fails only with truncation or block-size-mismatch. -/
theorem loadFoldersAux_error (flags n : Nat) (block : List Nat) :
    ∀ remaining i offset prev acc e,
      loadFoldersAux flags n block remaining i offset prev acc = .error e →
      e = .truncated ∨ e = .blockSizeMismatch := by
  intro remaining
  induction remaining with
  | zero =>
    intro i offset prev acc e h
    unfold loadFoldersAux at h
    split at h
    · exact absurd h (by simp)
    · exact Or.inr ((Except.error.injEq _ _).mp h |>.symm)
  | succ r ih =>
    intro i offset prev acc e h
    unfold loadFoldersAux at h
    split at h
    case _ e2 heq =>
      exact Or.inl ((Except.error.injEq _ _).mp h ▸
        readFolderRecord_error _ _ _ _ _ _ _ heq)
    case _ fr off2 np heq =>
      exact ih _ _ _ _ _ h

/-- The file-record loop fails only with truncation or block-size-mismatch. -/
theorem loadFilesAux_error (flags n : Nat) (block : List Nat) :
    ∀ remaining offset prev acc e,
      loadFilesAux flags n block remaining offset prev acc = .error e →
      e = .truncated ∨ e = .blockSizeMismatch := by
  intro remaining
  induction remaining with
  | zero =>
    intro offset prev acc e h
    unfold loadFilesAux at h
    split at h
    · exact absurd h (by simp)
    · exact Or.inr ((Except.error.injEq _ _).mp h |>.symm)
  | succ r ih =>
    intro offset prev acc e h
    unfold loadFilesAux at h
    split at h
    case _ e2 heq =>
      exact Or.inl ((Except.error.injEq _ _).mp h ▸
        readFileRecord_error _ _ _ _ _ _ heq)
    case _ fr off2 np heq =>
      exact ih _ _ _ _ h

/-- A successfully decoded folder record resolves its 4-byte parent index
(the last 4 bytes it consumed) to a parent reference only when it differs
from the folder's own index and is below the folder count; any other value
silently yields no parent. -/
theorem readFolderRecord_parent (flags n : Nat) (block : List Nat) (i offset : Nat)
    (prev : List Nat) (fr : EntryRec) (off2 : Nat) (np : List Nat)
    (h : readFolderRecord flags n block i offset prev = .ok (fr, off2, np)) :
    fr.parentIdx =
      if readLE32 block (off2 - 4) ≠ i ∧ readLE32 block (off2 - 4) < n
      then some (readLE32 block (off2 - 4)) else none := by
  unfold readFolderRecord at h
  split at h
  · exact absurd h (by simp)
  · split at h
    · exact absurd h (by simp)
    case _ name off1 heq =>
      split at h
      · exact absurd h (by simp)
      case _ size offb heq2 =>
        split at h
        · exact absurd h (by simp)
        case _ mtime off3 heq3 =>
          split at h
          · exact absurd h (by simp)
          · simp only [Except.ok.injEq, Prod.mk.injEq] at h
            obtain ⟨hfr, hoff, hnp⟩ := h
            subst hoff
            simp only [Nat.add_sub_cancel]
            rw [← hfr]

/-- A successfully decoded file record resolves its 4-byte parent index to a
parent reference only when it is below the folder count; any other value
silently yields no parent (and there is no self-reference exception). -/
theorem readFileRecord_parent (flags n : Nat) (block : List Nat) (offset : Nat)
    (prev : List Nat) (fr : EntryRec) (off2 : Nat) (np : List Nat)
    (h : readFileRecord flags n block offset prev = .ok (fr, off2, np)) :
    fr.parentIdx =
      if readLE32 block (off2 - 4) < n
      then some (readLE32 block (off2 - 4)) else none := by
  unfold readFileRecord at h
  split at h
  · exact absurd h (by simp)
  case _ name off1 heq =>
    split at h
    · exact absurd h (by simp)
    case _ size offb heq2 =>
      split at h
      · exact absurd h (by simp)
      case _ mtime off3 heq3 =>
        split at h
        · exact absurd h (by simp)
        · simp only [Except.ok.injEq, Prod.mk.injEq] at h
          obtain ⟨hfr, hoff, hnp⟩ := h
          subst hoff
          simp only [Nat.add_sub_cancel]
          rw [← hfr]

/-- C2 counterexample: a one-folder block whose parent index is 7 (neither
the folder's own index 0 nor `< 1`, the folder count) and a one-file block
whose parent index is 9; the claim requires the load to fail with
`FormatError(InvalidParentIndex)`, but both loads succeed, producing an
entry with no parent. Block layout (folders): 2 reserved bytes, delta name
(prefix 0, suffix "a"), 4-byte little-endian parent 7; files: the same
without the reserved bytes, parent 9. -/
theorem c2_counterexample :
    loadFolders 0 1 [0, 0, 0, 1, 97, 7, 0, 0, 0] =
      .ok [⟨[97], 0, 0, none⟩] ∧
    readLE32 [0, 0, 0, 1, 97, 7, 0, 0, 0] 5 = 7 ∧ ¬(7 < 1) ∧
    loadFiles 0 1 1 [0, 1, 97, 9, 0, 0, 0] = .ok [⟨[97], 0, 0, none⟩] ∧
    readLE32 [0, 1, 97, 9, 0, 0, 0] 3 = 9 ∧ ¬(9 < 1) := by
  refine ⟨?_, by decide, by decide, ?_, by decide, by decide⟩ <;> rfl

/-- C2 amended: the loaders never fail with `InvalidParentIndex` (their only
errors are truncation and block-size mismatch); instead, a successfully
decoded folder record keeps a parent reference only when its parent index
differs from its own index and is below the folder count, and a file record
only when its parent index is below the folder count — any other parent
index silently yields an entry with no parent. -/
theorem c2_amended :
    (∀ flags n block e, loadFolders flags n block = .error e →
      e = .truncated ∨ e = .blockSizeMismatch) ∧
    (∀ flags n nf block e, loadFiles flags n nf block = .error e →
      e = .truncated ∨ e = .blockSizeMismatch) ∧
    (∀ flags n block i offset prev fr off2 np,
      readFolderRecord flags n block i offset prev = .ok (fr, off2, np) →
      fr.parentIdx =
        if readLE32 block (off2 - 4) ≠ i ∧ readLE32 block (off2 - 4) < n
        then some (readLE32 block (off2 - 4)) else none) ∧
    (∀ flags n block offset prev fr off2 np,
      readFileRecord flags n block offset prev = .ok (fr, off2, np) →
      fr.parentIdx =
        if readLE32 block (off2 - 4) < n
        then some (readLE32 block (off2 - 4)) else none) :=
  ⟨fun flags n block e h => loadFoldersAux_error flags n block _ _ _ _ _ _ h,
   fun flags n nf block e h => loadFilesAux_error flags n block _ _ _ _ _ h,
   fun flags n block i offset prev fr off2 np h =>
     readFolderRecord_parent flags n block i offset prev fr off2 np h,
   fun flags n block offset prev fr off2 np h =>
     readFileRecord_parent flags n block offset prev fr off2 np h⟩

/-- Witness for C2 (amended) at concrete inputs: the folder record of the
counterexample block decodes successfully and its out-of-range parent index
7 resolves to no parent; an empty folder block with a declared folder count
errors, and the error is in the truncation/mismatch set. -/
theorem c2_amended_witness :
    (⟨[97], 0, 0, none⟩ : EntryRec).parentIdx =
      (if readLE32 [0, 0, 0, 1, 97, 7, 0, 0, 0] 5 ≠ 0 ∧
          readLE32 [0, 0, 0, 1, 97, 7, 0, 0, 0] 5 < 1
       then some (readLE32 [0, 0, 0, 1, 97, 7, 0, 0, 0] 5) else none) ∧
    (FormatError.truncated = .truncated ∨ FormatError.truncated = .blockSizeMismatch) :=
  ⟨c2_amended.2.2.1 0 1 [0, 0, 0, 1, 97, 7, 0, 0, 0] 0 0 [] ⟨[97], 0, 0, none⟩ 9 [97]
     (by rfl),
   c2_amended.1 0 1 [] .truncated (by rfl)⟩

/-- An acyclic chain of `Parent` pointers, nearest ancestor first: each
element is one ancestor folder's identity (modelling its Go pointer) and
name. `[]` models a nil `Parent`. Chains with pointer cycles make the Go
walk diverge and are outside every claim considered here. -/
abbrev Chain := List (Nat × String)

/-- Model of `db.Entry` as consumed by the path resolver: identity
(pointer), name, and the ancestor chain reachable through `Parent`. -/
structure EntryT where
  id : Nat
  name : String
  parentChain : Chain
deriving DecidableEq, Repr

/-- Component-collecting loop of `Entry.GetFullPath` (database.go lines
435-444): walk the chain appending non-empty ancestor names, and stop with
`isRoot = true` at the first empty-named ancestor (or `false` at a nil
parent). -/
def collectComponents : Chain → List String × Bool
  | [] => ([], false)
  | (_, n) :: rest =>
      if n = "" then ([], true)
      else (n :: (collectComponents rest).1, (collectComponents rest).2)

/-- String assembly of `Entry.GetFullPath` (database.go lines 450-457): the
components are written from the far end of the list down to its head, with
`"/"` before every component except the first written. -/
def buildPath : List String → String
  | [] => ""
  | [x] => x
  | x :: y :: l => buildPath (y :: l) ++ "/" ++ x

/-- Model of `Entry.GetFullPath` (database.go lines 410-460): an entry with
no parent maps to `"/"` when its name is empty and to its bare name
otherwise; any other entry's path is assembled from its name and the
collected ancestor components, prefixed with `"/"` when the walk ended at an
empty-named ancestor. -/
def entryGetFullPath (e : EntryT) : String :=
  match e.parentChain with
  | [] => if e.name = "" then "/" else e.name
  | _ :: _ =>
      (if (collectComponents e.parentChain).2 then "/" else "") ++
        buildPath (e.name :: (collectComponents e.parentChain).1)

theorem entryGetFullPath_cons (id : Nat) (name : String) (c : Chain)
    (hc : c ≠ []) :
    entryGetFullPath ⟨id, name, c⟩ =
      (if (collectComponents c).2 then "/" else "") ++
        buildPath (name :: (collectComponents c).1) := by
  cases c with
  | nil => exact absurd rfl hc
  | cons a c2 => rfl

theorem buildPath_length_le (x : String) (l : List String) :
    x.length ≤ (buildPath (x :: l)).length := by
  cases l with
  | nil => exact Nat.le_refl _
  | cons y l2 =>
      show x.length ≤ (buildPath (y :: l2) ++ "/" ++ x).length
      simp [String.length_append]

theorem string_pos_of_ne_empty (s : String) (hs : s ≠ "") : 0 < s.length := by
  cases s with
  | mk data =>
    cases data with
    | nil => exact absurd rfl hs
    | cons a as => simp [String.length]

/-- C3 counterexample: a folder named "c" whose parent is an empty-named
folder that itself has a parent named "g". The code's path for the child is
"/c", while the parent's own path is "g/", so the claimed recursion
(parent's path + "/" + own name, with no duplicate slash after "/") would
give "g//c". -/
theorem c3_counterexample :
    entryGetFullPath ⟨0, "c", [(1, ""), (2, "g")]⟩ = "/c" ∧
    entryGetFullPath ⟨1, "", [(2, "g")]⟩ = "g/" ∧
    entryGetFullPath ⟨0, "c", [(1, ""), (2, "g")]⟩ ≠
      (if entryGetFullPath ⟨1, "", [(2, "g")]⟩ = "/"
       then "/" ++ "c"
       else entryGetFullPath ⟨1, "", [(2, "g")]⟩ ++ "/" ++ "c") := by
  refine ⟨by decide, by decide, by decide⟩

/-- C3 amended: the two parentless cases hold unconditionally, and the
recursive case (entry's path = parent's path + "/" + own name, with no
duplicated slash when the parent's path is exactly "/") holds provided the
parent is not an empty-named folder that itself has a parent (the case of
the counterexample, where the walk stops early) and the parent is not a
parentless folder literally named "/". -/
theorem c3_amended (e : EntryT) :
    (e.parentChain = [] → e.name = "" → entryGetFullPath e = "/") ∧
    (e.parentChain = [] → e.name ≠ "" → entryGetFullPath e = e.name) ∧
    (∀ pid pname rest, e.parentChain = (pid, pname) :: rest →
      (rest = [] → pname ≠ "/") → (rest ≠ [] → pname ≠ "") →
      entryGetFullPath e =
        (if entryGetFullPath ⟨pid, pname, rest⟩ = "/"
         then "/" ++ e.name
         else entryGetFullPath ⟨pid, pname, rest⟩ ++ "/" ++ e.name)) := by
  obtain ⟨id, name, chain⟩ := e
  refine ⟨?_, ?_, ?_⟩
  · intro hc hn
    simp only at hc hn
    subst hc
    simp [entryGetFullPath, hn]
  · intro hc hn
    simp only at hc hn
    subst hc
    simp [entryGetFullPath, hn]
  · intro pid pname rest hc h1 h2
    simp only at hc
    subst hc
    by_cases hpn : pname = ""
    · have hrest : rest = [] := by
        by_contra hr
        exact (h2 hr) hpn
      subst hrest
      subst hpn
      rw [entryGetFullPath_cons _ _ _ (by simp)]
      simp [collectComponents, entryGetFullPath, buildPath]
    · cases rest with
      | nil =>
        rw [entryGetFullPath_cons _ _ _ (by simp)]
        have hpp : entryGetFullPath ⟨pid, pname, []⟩ = pname := by
          simp [entryGetFullPath, hpn]
        rw [hpp, if_neg (h1 rfl)]
        simp only [collectComponents, hpn, if_false]
        show ("" : String) ++ buildPath [name, pname] = pname ++ "/" ++ name
        show ("" : String) ++ (buildPath [pname] ++ "/" ++ name) = pname ++ "/" ++ name
        rfl
      | cons r0 rest2 =>
        have hne : r0 :: rest2 ≠ ([] : Chain) := by simp
        rw [entryGetFullPath_cons _ _ _ (by simp),
            entryGetFullPath_cons pid pname _ hne]
        obtain ⟨r0i, r0n⟩ := r0
        have hcol : collectComponents ((pid, pname) :: (r0i, r0n) :: rest2) =
            (pname :: (collectComponents ((r0i, r0n) :: rest2)).1,
             (collectComponents ((r0i, r0n) :: rest2)).2) := by
          simp [collectComponents, hpn]
        rw [hcol]
        have hbp : buildPath (name :: pname ::
            (collectComponents ((r0i, r0n) :: rest2)).1) =
            buildPath (pname :: (collectComponents ((r0i, r0n) :: rest2)).1) ++
              "/" ++ name := rfl
        have hppne : (if (collectComponents ((r0i, r0n) :: rest2)).2 then "/" else "") ++
            buildPath (pname :: (collectComponents ((r0i, r0n) :: rest2)).1) ≠ "/" := by
          intro hcontra
          apply_fun String.length at hcontra
          have hb := buildPath_length_le pname (collectComponents ((r0i, r0n) :: rest2)).1
          have hp0 : 0 < pname.length := string_pos_of_ne_empty pname hpn
          by_cases hr : (collectComponents ((r0i, r0n) :: rest2)).2
          · rw [if_pos hr] at hcontra
            simp [String.length_append] at hcontra
            omega
          · rw [if_neg hr] at hcontra
            have hc1 : (collectComponents ((r0i, r0n) :: rest2)).1 ≠ [] := by
              by_cases hr0 : r0n = ""
              · exfalso
                apply hr
                simp [collectComponents, hr0]
              · simp [collectComponents, hr0]
            obtain ⟨c0, crest, hcc⟩ : ∃ c0 crest,
                (collectComponents ((r0i, r0n) :: rest2)).1 = c0 :: crest := by
              cases hcl : (collectComponents ((r0i, r0n) :: rest2)).1 with
              | nil => exact absurd hcl hc1
              | cons c0 crest => exact ⟨c0, crest, rfl⟩
            rw [hcc] at hcontra
            have : buildPath (pname :: c0 :: crest) =
                buildPath (c0 :: crest) ++ "/" ++ pname := rfl
            rw [this] at hcontra
            simp [String.length_append] at hcontra
            omega
        rw [if_neg hppne]
        simp only [hbp, String.append_assoc]

/-- Witness for C3 (amended) on the chain root("") → "home" → "user" →
"test.txt": the recursive path equation holds there. -/
theorem c3_amended_witness :
    entryGetFullPath ⟨0, "test.txt", [(3, "user"), (2, "home"), (1, "")]⟩ =
      (if entryGetFullPath ⟨3, "user", [(2, "home"), (1, "")]⟩ = "/"
       then "/" ++ "test.txt"
       else entryGetFullPath ⟨3, "user", [(2, "home"), (1, "")]⟩ ++ "/" ++ "test.txt") :=
  (c3_amended ⟨0, "test.txt", [(3, "user"), (2, "home"), (1, "")]⟩).2.2 3 "user"
    [(2, "home"), (1, "")] rfl (by decide) (by decide)

theorem collectComponents_break (pre : Chain) (fid : Nat) (post : Chain)
    (hpre : ∀ x ∈ pre, x.2 ≠ "") :
    collectComponents (pre ++ (fid, "") :: post) = (pre.map Prod.snd, true) := by
  induction pre with
  | nil => simp [collectComponents]
  | cons a pre2 ih =>
      obtain ⟨ai, an⟩ := a
      have ha : an ≠ "" := hpre (ai, an) (by simp)
      have ih2 := ih (fun x hx => hpre x (by simp [hx]))
      simp [collectComponents, ha, ih2]

/-- C10: when an entry's parent chain reaches an empty-named folder after
`pre` (the non-empty-named ancestors below it), the walk stops there and
treats it as the root: the path is "/" followed by the components below the
stop point, regardless of `post` — everything above the first empty-named
ancestor, including its own parent, is omitted. -/
theorem c10_stop_at_empty (e : EntryT) (pre : Chain) (fid : Nat) (post : Chain)
    (hchain : e.parentChain = pre ++ (fid, "") :: post)
    (hpre : ∀ x ∈ pre, x.2 ≠ "") :
    entryGetFullPath e = "/" ++ buildPath (e.name :: pre.map Prod.snd) := by
  obtain ⟨id, name, chain⟩ := e
  simp only at hchain
  subst hchain
  rw [entryGetFullPath_cons _ _ _ (by simp),
      collectComponents_break pre fid post hpre]
  simp

/-- Witness for C10: folder "c" under "x" under an empty-named folder that
itself has parent "z"; the path is "/x/c" and "z" is omitted. -/
theorem c10_stop_at_empty_witness :
    entryGetFullPath ⟨0, "c", [(1, "x"), (2, ""), (3, "z")]⟩ =
      "/" ++ buildPath ["c", "x"] :=
  c10_stop_at_empty ⟨0, "c", [(1, "x"), (2, ""), (3, "z")]⟩ [(1, "x")] 2 [(3, "z")]
    rfl (by decide)

/-- Association-list model of the `sync.Map` path cache `db.pathCache`,
keyed by entry identity (the Go `*Entry` pointer, modelled by `EntryT.id`);
`Store` conses, so a lookup sees the newest binding. -/
def lookupCache : List (Nat × String) → Nat → Option String
  | [], _ => none
  | (k, v) :: rest, a => if a = k then some v else lookupCache rest a

/-- Model of `Database.getFullPathCached` (database.go lines 462-504),
with the cache state and the number of computed (cache-missing) entries made
explicit: probe the cache; on a miss, a parentless entry's path is "/" or
its bare name, and otherwise the parent's path is computed recursively and
extended with "/" and the entry's name (no duplicate slash after a parent
path of exactly "/"); every computed path is stored. The Go code also probes
the cache with the `*Folder` pointer `e.Parent` before recursing, but stored
keys are always `*Entry` pointers, so that probe can never hit and the
recursive call performs the probe that can. -/
def gfpCached : List (Nat × String) → Nat → String → Chain →
    String × List (Nat × String) × Nat
  | cache, id, name, [] =>
    match lookupCache cache id with
    | some s => (s, cache, 0)
    | none =>
        ((if name = "" then "/" else name),
         (id, if name = "" then "/" else name) :: cache, 1)
  | cache, id, name, (pid, pname) :: rest =>
    match lookupCache cache id with
    | some s => (s, cache, 0)
    | none =>
        ((if (gfpCached cache pid pname rest).1 = "/" then "/" ++ name
          else (gfpCached cache pid pname rest).1 ++ "/" ++ name),
         (id, if (gfpCached cache pid pname rest).1 = "/" then "/" ++ name
              else (gfpCached cache pid pname rest).1 ++ "/" ++ name) ::
           (gfpCached cache pid pname rest).2.1,
         (gfpCached cache pid pname rest).2.2 + 1)

/-- Iteration count of the parent-walk loop of `Entry.GetFullPath`
(database.go lines 437-444): one step per ancestor visited, stopping at an
empty name. -/
def collectSteps : Chain → Nat
  | [] => 0
  | (_, n) :: rest => if n = "" then 1 else 1 + collectSteps rest

/-- Parent-walk steps a call to `Entry.GetFullPath` performs: none for a
parentless entry, the walk-loop iterations otherwise. -/
def pathWalkSteps (e : EntryT) : Nat :=
  match e.parentChain with
  | [] => 0
  | _ :: _ => collectSteps e.parentChain

/-- `Entry.GetFullPath` run against the program's path-cache state: the
function (database.go lines 410-460) never reads or writes `db.pathCache`
(it has no access to the Database, as its own comments note), so the cache
passes through unchanged and every call performs the full parent walk. -/
def entryGetFullPathWithCache (cache : List (Nat × String)) (e : EntryT) :
    String × List (Nat × String) × Nat :=
  (entryGetFullPath e, cache, pathWalkSteps e)

theorem gfp_hit (cache : List (Nat × String)) (id : Nat) (name : String)
    (chain : Chain) (s : String) (h : lookupCache cache id = some s) :
    gfpCached cache id name chain = (s, cache, 0) := by
  cases chain with
  | nil => unfold gfpCached; rw [h]
  | cons a rest =>
      obtain ⟨pid, pname⟩ := a
      unfold gfpCached
      rw [h]

theorem gfp_miss_nil (cache : List (Nat × String)) (id : Nat) (name : String)
    (h : lookupCache cache id = none) :
    gfpCached cache id name [] =
      ((if name = "" then "/" else name),
       (id, if name = "" then "/" else name) :: cache, 1) := by
  unfold gfpCached
  rw [h]

theorem gfp_miss_cons (cache : List (Nat × String)) (id : Nat) (name : String)
    (pid : Nat) (pname : String) (rest : Chain)
    (h : lookupCache cache id = none) :
    gfpCached cache id name ((pid, pname) :: rest) =
      ((if (gfpCached cache pid pname rest).1 = "/" then "/" ++ name
        else (gfpCached cache pid pname rest).1 ++ "/" ++ name),
       (id, if (gfpCached cache pid pname rest).1 = "/" then "/" ++ name
            else (gfpCached cache pid pname rest).1 ++ "/" ++ name) ::
         (gfpCached cache pid pname rest).2.1,
       (gfpCached cache pid pname rest).2.2 + 1) := by
  conv_lhs => unfold gfpCached
  rw [h]

/-- After any `gfpCached` call, the entry's path is stored in (or already
found in) the resulting cache. -/
theorem gfp_stored (cache : List (Nat × String)) (id : Nat) (name : String)
    (chain : Chain) :
    lookupCache (gfpCached cache id name chain).2.1 id =
      some (gfpCached cache id name chain).1 := by
  cases hl : lookupCache cache id with
  | some s => rw [gfp_hit cache id name chain s hl]; exact hl
  | none =>
    cases chain with
    | nil => rw [gfp_miss_nil cache id name hl]; simp [lookupCache]
    | cons a rest =>
      obtain ⟨pid, pname⟩ := a
      rw [gfp_miss_cons cache id name pid pname rest hl]
      simp [lookupCache]

theorem lookupCache_cons_isSome (c : List (Nat × String)) (k : Nat) (v : String)
    (a : Nat) (h : (lookupCache c a).isSome = true) :
    (lookupCache ((k, v) :: c) a).isSome = true := by
  by_cases hk : a = k
  · simp [lookupCache, hk]
  · simp [lookupCache, hk, h]

/-- From an empty cache, `gfpCached` computes each of the entry and its
ancestors exactly once (one walk step per chain link plus the entry itself)
and stores every one of their paths. -/
theorem gfp_fresh (id : Nat) (name : String) (chain : Chain) :
    (gfpCached [] id name chain).2.2 = chain.length + 1 ∧
    ∀ pr ∈ chain, (lookupCache (gfpCached [] id name chain).2.1 pr.1).isSome = true := by
  induction chain generalizing id name with
  | nil => exact ⟨rfl, by simp⟩
  | cons a rest ih =>
    obtain ⟨pid, pname⟩ := a
    rw [gfp_miss_cons [] id name pid pname rest rfl]
    obtain ⟨ihsteps, ihstored⟩ := ih pid pname
    refine ⟨by simpa using ihsteps, ?_⟩
    intro pr hpr
    rcases List.mem_cons.mp hpr with hpr | hpr
    · subst hpr
      exact lookupCache_cons_isSome _ _ _ _ (by rw [gfp_stored]; rfl)
    · exact lookupCache_cons_isSome _ _ _ _ (ihstored pr hpr)

/-- C8 counterexample: the exposed `Entry.GetFullPath` (the resolver used by
`SearchByPath` and the CLI) run on an entry with one ancestor, starting from
an empty path-cache: nothing is stored in the table (refuting "storing the
computed path of the entry ... in the table"), and a second call on the same
entry still performs a nonzero number of parent-walk steps (refuting
"a subsequent full_path on the same entry ... does not re-traverse"). -/
theorem c8_counterexample :
    (entryGetFullPathWithCache [] ⟨0, "x", [(1, "")]⟩).2.1 = [] ∧
    lookupCache (entryGetFullPathWithCache [] ⟨0, "x", [(1, "")]⟩).2.1 0 = none ∧
    (entryGetFullPathWithCache
       (entryGetFullPathWithCache [] ⟨0, "x", [(1, "")]⟩).2.1
       ⟨0, "x", [(1, "")]⟩).2.2 ≠ 0 := by
  exact ⟨rfl, rfl, by decide⟩

/-- C8 amended: the exposed `Entry.GetFullPath` does not consult or update
the path-memoization table (the cache passes through unchanged, the result
is the pure `entryGetFullPath`, identical on every call); the claimed
behaviour belongs to the internal `Database.getFullPathCached` (which no
caller uses): it stores the computed path of the entry, computing and
storing each uncached ancestor exactly once from a fresh cache, a repeated
call on the same entry returns the identical string with zero walk steps,
and a sibling of a freshly computed entry costs at most one walk step
because the cached ancestors are not re-traversed. -/
theorem c8_amended :
    (∀ cache e, entryGetFullPathWithCache cache e =
      (entryGetFullPath e, cache, pathWalkSteps e)) ∧
    (∀ cache id name chain,
      lookupCache (gfpCached cache id name chain).2.1 id =
        some (gfpCached cache id name chain).1) ∧
    (∀ cache id name chain,
      gfpCached (gfpCached cache id name chain).2.1 id name chain =
        ((gfpCached cache id name chain).1, (gfpCached cache id name chain).2.1, 0)) ∧
    (∀ id name chain,
      (gfpCached [] id name chain).2.2 = chain.length + 1 ∧
      ∀ pr ∈ chain, (lookupCache (gfpCached [] id name chain).2.1 pr.1).isSome = true) ∧
    (∀ cache id name pid pname rest id2 name2,
      lookupCache cache id = none → id ≠ pid →
      (gfpCached (gfpCached cache id name ((pid, pname) :: rest)).2.1
         id2 name2 ((pid, pname) :: rest)).2.2 ≤ 1) := by
  refine ⟨fun cache e => rfl, gfp_stored, ?_, gfp_fresh, ?_⟩
  · intro cache id name chain
    rw [gfp_hit _ _ _ _ _ (gfp_stored cache id name chain)]
  · intro cache id name pid pname rest id2 name2 hmiss hne
    rw [gfp_miss_cons cache id name pid pname rest hmiss]
    have hpstored : lookupCache
        ((id, if (gfpCached cache pid pname rest).1 = "/" then "/" ++ name
              else (gfpCached cache pid pname rest).1 ++ "/" ++ name) ::
          (gfpCached cache pid pname rest).2.1) pid =
        some (gfpCached cache pid pname rest).1 := by
      have : pid ≠ id := fun hcontra => hne hcontra.symm
      simp only [lookupCache, if_neg this]
      exact gfp_stored cache pid pname rest
    cases hl2 : lookupCache
        ((id, if (gfpCached cache pid pname rest).1 = "/" then "/" ++ name
              else (gfpCached cache pid pname rest).1 ++ "/" ++ name) ::
          (gfpCached cache pid pname rest).2.1) id2 with
    | some s =>
        rw [gfp_hit _ _ _ _ _ hl2]
        exact Nat.zero_le 1
    | none =>
        rw [gfp_miss_cons _ _ _ _ _ _ hl2,
            gfp_hit _ _ _ _ _ hpstored]

/-- Witness for C8 (amended): the sibling bound applied at a concrete
two-entry family — after computing entry 0 (parent 1), computing sibling 2
costs at most one walk step. -/
theorem c8_amended_witness :
    (gfpCached (gfpCached [] 0 "a" [(1, "r")]).2.1 2 "b" [(1, "r")]).2.2 ≤ 1 :=
  c8_amended.2.2.2.2 [] 0 "a" 1 "r" [] 2 "b" rfl (by decide)

/-- `SearchOptions` (search.go lines 11-18); `maxResults` keeps Go's `int`
(0 = unlimited). -/
structure SearchOptions where
  query : String
  caseSensitive : Bool
  matchWholeWord : Bool
  searchInFiles : Bool
  searchInFolders : Bool
  maxResults : Int
deriving Repr

/-- `hasWildcards` (search.go lines 68-70): the query contains `*` or `?`. -/
def hasWildcards (s : String) : Bool :=
  s.toList.contains '*' || s.toList.contains '?'

/-- The regex metacharacters `convertWildcardToRegex` escapes (search.go
line 87): dot, caret, dollar, plus, parentheses, brackets, braces,
backslash, pipe. -/
def escapedChars : List Char :=
  ['.', '^', '$', '+', '(', ')', '[', ']', Char.ofNat 123, Char.ofNat 125,
   '\\', '|']

/-- Per-character emission of `convertWildcardToRegex` (search.go lines
81-94): `*` becomes dot-star, `?` becomes dot, escaped metacharacters get a
backslash, everything else is emitted verbatim. -/
def emitChar (c : Char) : List Char :=
  if c = '*' then ['.', '*']
  else if c = '?' then ['.']
  else if escapedChars.contains c then ['\\', c]
  else [c]

/-- Model of `convertWildcardToRegex` (search.go lines 77-98): anchor with a
caret, emit each pattern character in order, anchor with a dollar. -/
def convertWildcardToRegex (pattern : String) : String :=
  ⟨'^' :: ((pattern.toList.map emitChar).flatten ++ ['$'])⟩

/-- One element of the regexes the converter emits: dot (any one rune),
dot-star (any run of runes), or a literal character (escaped or bare). -/
inductive RElem where
  | dot
  | dotStar
  | lit (c : Char)
deriving DecidableEq, Repr

/-- Characters that cannot stand bare as one literal element of the regex
fragment (quantifiers, groups, classes, alternation, anchors); a parse
returning `none` models a `regexp.Compile` error. -/
def bareSpecials : List Char :=
  ['*', '+', '?', '(', ')', '[', ']', Char.ofNat 123, Char.ofNat 125,
   '|', '^', '$']

/-- Parser for the regex fragment between the anchors; models how
`regexp.Compile` reads the patterns the converter emits. -/
def parseGen : List Char → Option (List RElem)
  | [] => some []
  | c :: rest =>
    if c = '\\' then
      match rest with
      | [] => none
      | d :: rest2 => (parseGen rest2).map (RElem.lit d :: ·)
    else if c = '.' then
      match rest with
      | [] => some [RElem.dot]
      | r :: rest2 =>
          if r = '*' then (parseGen rest2).map (RElem.dotStar :: ·)
          else (parseGen (r :: rest2)).map (RElem.dot :: ·)
    else if bareSpecials.contains c then none
    else (parseGen rest).map (RElem.lit c :: ·)

/-- Models `regexp.Compile` on the anchored patterns the converter builds:
require the leading caret and trailing dollar, parse the middle. -/
def regexCompileGen (p : String) : Option (List RElem) :=
  match p.toList with
  | [] => none
  | c :: rest =>
      if c = '^' then
        if rest.getLast? = some '$' then parseGen rest.dropLast else none
      else none

/-- Case-folding equality: Go's `(?i)` regex mode and `strings.ToLower` are
modelled by a caller-supplied per-rune lowering function `low` (the Unicode
case tables are external to this development). -/
def charFoldEq (caseIns : Bool) (low : Char → Char) (c d : Char) : Bool :=
  if caseIns then low c == low d else c == d

/-- Anchored match of the parsed regex fragment against a candidate, rune by
rune; models RE2's boolean whole-string match for the emitted patterns.
Go's `.` — and hence the emitted dot and dot-star elements — does not match
a newline: the `s` flag is off in every pattern the program compiles (plain
`regexp.Compile(p)` or `"(?i)" + p`). -/
def reMatch (ci : Bool) (low : Char → Char) : List RElem → List Char → Bool
  | [], cs => cs.isEmpty
  | RElem.dot :: ps, cs =>
      match cs with
      | [] => false
      | d :: cs2 => !(d == '\n') && reMatch ci low ps cs2
  | RElem.lit c :: ps, cs =>
      match cs with
      | [] => false
      | d :: cs2 => charFoldEq ci low c d && reMatch ci low ps cs2
  | RElem.dotStar :: ps, cs =>
      match cs with
      | [] => reMatch ci low ps []
      | d :: cs2 => reMatch ci low ps (d :: cs2) ||
          (!(d == '\n') && reMatch ci low (RElem.dotStar :: ps) cs2)
termination_by ps cs => (ps.length, cs.length)

/-- Wildcard semantics exactly as the specification words them: `*` matches
zero or more of any character, `?` exactly one of any character, every
other query character matches literally (case-folded when insensitive), and
the pattern must match the entire candidate string. The program does not
implement this — see the newline divergence — so this definition only
states what the specification demands. -/
def wildcardMatches (ci : Bool) (low : Char → Char) : List Char → List Char → Bool
  | [], cs => cs.isEmpty
  | c :: ps, cs =>
      if c = '*' then
        match cs with
        | [] => wildcardMatches ci low ps []
        | d :: cs2 =>
            wildcardMatches ci low ps (d :: cs2) ||
              wildcardMatches ci low (c :: ps) cs2
      else if c = '?' then
        match cs with
        | [] => false
        | _ :: cs2 => wildcardMatches ci low ps cs2
      else
        match cs with
        | [] => false
        | d :: cs2 => charFoldEq ci low c d && wildcardMatches ci low ps cs2
termination_by ps cs => (ps.length, cs.length)

/-- Wildcard semantics as the program realizes them through Go's regexp:
`*` matches zero or more characters other than newline, `?` exactly one
character other than newline (the `s` flag is off, so `.` excludes `\n`),
every other query character matches literally (case-folded when
insensitive), and the pattern must match the entire candidate string. -/
def wildcardMatchesNoNL (ci : Bool) (low : Char → Char) :
    List Char → List Char → Bool
  | [], cs => cs.isEmpty
  | c :: ps, cs =>
      if c = '*' then
        match cs with
        | [] => wildcardMatchesNoNL ci low ps []
        | d :: cs2 =>
            wildcardMatchesNoNL ci low ps (d :: cs2) ||
              (!(d == '\n') && wildcardMatchesNoNL ci low (c :: ps) cs2)
      else if c = '?' then
        match cs with
        | [] => false
        | d :: cs2 => !(d == '\n') && wildcardMatchesNoNL ci low ps cs2
      else
        match cs with
        | [] => false
        | d :: cs2 => charFoldEq ci low c d && wildcardMatchesNoNL ci low ps cs2
termination_by ps cs => (ps.length, cs.length)

/-- The element sequence the converter's output stands for. -/
def trElems : List Char → List RElem
  | [] => []
  | c :: rest =>
      if c = '*' then RElem.dotStar :: trElems rest
      else if c = '?' then RElem.dot :: trElems rest
      else RElem.lit c :: trElems rest

theorem emitChar_ne_nil (c : Char) : emitChar c ≠ [] := by
  unfold emitChar
  split
  · simp
  · split
    · simp
    · split <;> simp

theorem emitChar_head_ne_star (c h : Char) (t : List Char)
    (he : emitChar c = h :: t) : h ≠ '*' := by
  unfold emitChar at he
  split at he
  · injection he with h1 _
    rw [← h1]
    decide
  · split at he
    · injection he with h1 _
      rw [← h1]
      decide
    · split at he
      · injection he with h1 _
        rw [← h1]
        decide
      · rename_i hstar _ _
        injection he with h1 _
        rw [← h1]
        exact hstar

theorem flattenEmit_head_ne_star (l : List Char) (h : Char) (t : List Char)
    (he : (l.map emitChar).flatten = h :: t) : h ≠ '*' := by
  cases l with
  | nil => simp at he
  | cons a rest =>
    rw [List.map_cons, List.flatten_cons] at he
    cases hemit : emitChar a with
    | nil => exact absurd hemit (emitChar_ne_nil a)
    | cons e0 et =>
      rw [hemit] at he
      simp only [List.cons_append] at he
      injection he with h1 _
      rw [← h1]
      exact emitChar_head_ne_star a e0 et hemit

theorem parseGen_cons_plain (c : Char) (rest : List Char)
    (hc1 : c ≠ '\\') (hc2 : c ≠ '.') (hbare : bareSpecials.contains c = false) :
    parseGen (c :: rest) = (parseGen rest).map (RElem.lit c :: ·) := by
  rw [parseGen.eq_def]
  dsimp only
  rw [if_neg hc1, if_neg hc2,
      if_neg (fun hcontra => by rw [hbare] at hcontra; exact Bool.noConfusion hcontra)]

theorem parseGen_cons_esc (c : Char) (rest : List Char) :
    parseGen ('\\' :: c :: rest) = (parseGen rest).map (RElem.lit c :: ·) := by
  rw [parseGen.eq_def]
  dsimp only
  rw [if_pos rfl]

theorem parseGen_dot_nil : parseGen ['.'] = some [RElem.dot] := by
  rw [parseGen.eq_def]
  dsimp only
  rw [if_neg (by decide), if_pos rfl]

theorem parseGen_dot_cons (r : Char) (rest : List Char) (hr : r ≠ '*') :
    parseGen ('.' :: r :: rest) = (parseGen (r :: rest)).map (RElem.dot :: ·) := by
  rw [parseGen.eq_def]
  dsimp only
  rw [if_neg (by decide), if_pos rfl, if_neg hr]

theorem parseGen_dotstar (rest : List Char) :
    parseGen ('.' :: '*' :: rest) = (parseGen rest).map (RElem.dotStar :: ·) := by
  rw [parseGen.eq_def]
  dsimp only
  rw [if_neg (by decide), if_pos rfl, if_pos rfl]

/-- The converter's output between the anchors always compiles, to exactly
the element sequence `trElems` describes. -/
theorem parseGen_emit (l : List Char) :
    parseGen ((l.map emitChar).flatten) = some (trElems l) := by
  induction l with
  | nil => rfl
  | cons c rest ih =>
    rw [List.map_cons, List.flatten_cons]
    by_cases h1 : c = '*'
    · subst h1
      show parseGen ('.' :: '*' :: (rest.map emitChar).flatten) = _
      rw [parseGen_dotstar, ih]
      simp [trElems]
    · by_cases h2 : c = '?'
      · subst h2
        show parseGen ('.' :: (rest.map emitChar).flatten) = _
        cases hfl : (rest.map emitChar).flatten with
        | nil =>
          rw [hfl] at ih
          rw [parseGen_dot_nil]
          have hre : trElems rest = [] := by
            have : (some [] : Option (List RElem)) = some (trElems rest) := ih
            exact (Option.some.injEq _ _).mp this |>.symm
          simp [trElems, hre]
        | cons f ft =>
          have hf : f ≠ '*' := flattenEmit_head_ne_star rest f ft hfl
          rw [hfl] at ih
          rw [parseGen_dot_cons f ft hf, ih]
          simp [trElems]
      · by_cases h3 : escapedChars.contains c = true
        · have hemit : emitChar c = ['\\', c] := by
            unfold emitChar
            rw [if_neg h1, if_neg h2, if_pos h3]
          rw [hemit]
          rw [show ((['\\', c] : List Char) ++ (rest.map emitChar).flatten) =
                ('\\' :: c :: (rest.map emitChar).flatten) from rfl,
              parseGen_cons_esc, ih]
          simp [trElems, h1, h2]
        · have hc1 : c ≠ '\\' := by
            intro hcontra
            subst hcontra
            exact h3 (by decide)
          have hc2 : c ≠ '.' := by
            intro hcontra
            subst hcontra
            exact h3 (by decide)
          have hbare : bareSpecials.contains c = false := by
            cases hb : bareSpecials.contains c
            · rfl
            · exfalso
              have hmem : c ∈ bareSpecials := List.mem_of_elem_eq_true hb
              simp only [bareSpecials, List.mem_cons, List.not_mem_nil,
                or_false] at hmem
              rcases hmem with h|h|h|h|h|h|h|h|h|h|h|h
              all_goals first
                | exact h1 h
                | exact h2 h
                | (subst h; exact h3 (by decide))
          have hemit : emitChar c = [c] := by
            unfold emitChar
            rw [if_neg h1, if_neg h2, if_neg h3]
          rw [hemit]
          rw [show (([c] : List Char) ++ (rest.map emitChar).flatten) =
                (c :: (rest.map emitChar).flatten) from rfl,
              parseGen_cons_plain c _ hc1 hc2 hbare, ih]
          simp [trElems, h1, h2]

/-- Compiling the converter's full anchored output never fails and yields
the element sequence of the query. -/
theorem regexCompileGen_convert (q : String) :
    regexCompileGen (convertWildcardToRegex q) = some (trElems q.toList) := by
  show regexCompileGen ⟨'^' :: ((q.toList.map emitChar).flatten ++ ['$'])⟩ = _
  rw [regexCompileGen.eq_def]
  dsimp only [String.toList]
  rw [if_pos rfl, if_pos (by simp), List.dropLast_concat]
  exact parseGen_emit q.toList

/-- The parsed converter output matches exactly as the newline-excluding
wildcard semantics prescribe. -/
theorem reMatch_trElems (ci : Bool) (low : Char → Char) :
    ∀ q cs, reMatch ci low (trElems q) cs = wildcardMatchesNoNL ci low q cs := by
  intro q
  induction q with
  | nil => intro cs; simp [trElems, reMatch, wildcardMatchesNoNL]
  | cons c q2 ih =>
    intro cs
    by_cases h1 : c = '*'
    · subst h1
      induction cs with
      | nil => simp [trElems, reMatch, wildcardMatchesNoNL, ih]
      | cons d cs2 ihc => simp [trElems, reMatch, wildcardMatchesNoNL, ih] at ihc ⊢
                          rw [ihc]
    · by_cases h2 : c = '?'
      · subst h2
        cases cs with
        | nil => simp [trElems, reMatch, wildcardMatchesNoNL, h1]
        | cons d cs2 => simp [trElems, reMatch, wildcardMatchesNoNL, h1, ih]
      · cases cs with
        | nil => simp [trElems, reMatch, wildcardMatchesNoNL, h1, h2]
        | cons d cs2 => simp [trElems, reMatch, wildcardMatchesNoNL, h1, h2, ih]

/-- Model of `strings.Index(text, query)` at rune granularity: the first
position where `q` is a prefix of the remaining text, if any. Byte-level
matches of valid UTF-8 strings are always rune-aligned, so this is faithful
for the matcher's regime. -/
def indexOfSub (q : List Char) : List Char → Option Nat
  | [] => if q.isPrefixOf [] then some 0 else none
  | a :: t2 =>
      if q.isPrefixOf (a :: t2) then some 0
      else (indexOfSub q t2).map (· + 1)

/-- Model of `strings.Contains(t, q)`. -/
def containsSub (t q : List Char) : Bool := (indexOfSub q t).isSome

/-- Loop of `Database.matchWholeWord` (search.go lines 140-170), fuelled.
Each round models one iteration: slice `text[idx:]` (a `none` result models
the out-of-range panic Go would hit when `idx > len(text)`, reachable only
for the empty query), find the next occurrence, test both word boundaries
(string edge, or a character on which the word classifier `isW` — modelling
`unicode.IsLetter`/`unicode.IsDigit`/underscore — is false), and either
succeed or resume after the occurrence. -/
def matchWholeWordGo (isW : Char → Bool) :
    Nat → List Char → List Char → Nat → Option Bool
  | 0, _, _, _ => none
  | fuel + 1, t, q, idx =>
    if idx > t.length then none
    else
      match indexOfSub q (t.drop idx) with
      | none => some false
      | some p =>
          if (p + idx == 0 || !isW (t.getD (p + idx - 1) ' ')) &&
             (p + idx + q.length == t.length || !isW (t.getD (p + idx + q.length) ' '))
          then some true
          else matchWholeWordGo isW fuel t q (p + idx + 1)

/-- `Database.matchWholeWord` with fuel ample for every execution (the index
strictly increases each round and the loop is over once it passes the end of
the text). -/
def matchWholeWord (isW : Char → Bool) (t q : List Char) : Option Bool :=
  matchWholeWordGo isW (t.length + 2) t q 0

/-- Model of `Database.matches` (search.go lines 101-137; `matches` is a
reserved word in Lean, hence `matchesFn`): a query with
wildcards is compiled (case-insensitively unless `caseSensitive`) and tried
against the whole candidate, falling back to substring containment if the
compile fails; otherwise both strings are lowered unless `caseSensitive`,
and either the whole-word loop or plain substring containment decides.
`low` models `strings.ToLower`'s per-rune mapping; `some b` is a returned
boolean, `none` the panic reachable in the whole-word loop. -/
def matchesFn (isW : Char → Bool) (low : Char → Char) (text query : String)
    (opts : SearchOptions) : Option Bool :=
  if hasWildcards query then
    match regexCompileGen (convertWildcardToRegex query) with
    | some re => some (reMatch (!opts.caseSensitive) low re text.toList)
    | none =>
        some (containsSub
          (if opts.caseSensitive then text.toList else text.toList.map low)
          (if opts.caseSensitive then query.toList else query.toList.map low))
  else
    if opts.matchWholeWord then
      matchWholeWord isW
        (if opts.caseSensitive then text.toList else text.toList.map low)
        (if opts.caseSensitive then query.toList else query.toList.map low)
    else
      some (containsSub
        (if opts.caseSensitive then text.toList else text.toList.map low)
        (if opts.caseSensitive then query.toList else query.toList.map low))

/-- C6 counterexample: on the candidate containing a newline, the matcher
rejects the wildcard query "a?b" (Go's regexp `.` does not match `\n`, the
`s` flag being off), while the claimed "exactly one of any character"
semantics accept it. -/
theorem c6_counterexample :
    matchesFn (fun c => c.isAlphanum) Char.toLower "a\nb" "a?b"
      ⟨"a?b", true, false, true, true, 0⟩ = some false ∧
    wildcardMatches
      (!(⟨"a?b", true, false, true, true, 0⟩ : SearchOptions).caseSensitive)
      Char.toLower "a?b".toList "a\nb".toList = true := by
  constructor
  · unfold matchesFn
    rw [if_pos (by decide)]
    simp only [regexCompileGen_convert]
    rw [reMatch_trElems]
    show some (wildcardMatchesNoNL false Char.toLower
      ['a', '?', 'b'] ['a', '\n', 'b']) = some false
    simp [wildcardMatchesNoNL, charFoldEq]
  · show wildcardMatches false Char.toLower ['a', '?', 'b'] ['a', '\n', 'b'] = true
    simp [wildcardMatches, charFoldEq]

/-- C6 amended: whenever the query contains `*` or `?`, the matcher decides
by wildcard matching regardless of the case-sensitivity and whole-word
flags — with `*` matching zero or more characters other than newline and
`?` exactly one character other than newline (Go's regexp `.` leaves the
`s` flag off), every other query character literal (case-folded when
insensitive), anchored to the entire candidate. -/
theorem c6_amended (isW : Char → Bool) (low : Char → Char) (text query : String)
    (opts : SearchOptions) (hw : hasWildcards query = true) :
    matchesFn isW low text query opts =
      some (wildcardMatchesNoNL (!opts.caseSensitive) low query.toList text.toList) := by
  unfold matchesFn
  rw [if_pos hw]
  simp only [regexCompileGen_convert]
  rw [reMatch_trElems]

/-- Witness for C6 (amended) at the wildcard query "a*" against "abc" with
the whole-word flag set (and ignored). -/
theorem c6_amended_witness :
    matchesFn (fun c => c.isAlphanum) Char.toLower "abc" "a*"
      ⟨"a*", false, true, true, true, 0⟩ =
      some (wildcardMatchesNoNL true Char.toLower "a*".toList "abc".toList) :=
  c6_amended (fun c => c.isAlphanum) Char.toLower "abc" "a*"
    ⟨"a*", false, true, true, true, 0⟩ (by decide)

theorem indexOfSub_none (q : List Char) :
    ∀ t, indexOfSub q t = none → ∀ i, q.isPrefixOf (t.drop i) = false := by
  intro t
  induction t with
  | nil =>
    intro h i
    unfold indexOfSub at h
    split at h
    · exact absurd h (by simp)
    · rename_i hnp
      rw [List.drop_nil]
      cases hq : q.isPrefixOf ([] : List Char)
      · rfl
      · exact absurd hq hnp
  | cons a t2 ih =>
    intro h i
    unfold indexOfSub at h
    split at h
    · exact absurd h (by simp)
    · rename_i hnp
      have h2 : indexOfSub q t2 = none := by
        cases hio : indexOfSub q t2
        · rfl
        · rw [hio] at h
          exact absurd h (by simp)
      cases i with
      | zero =>
        rw [List.drop_zero]
        cases hq : q.isPrefixOf (a :: t2)
        · rfl
        · exact absurd hq hnp
      | succ j =>
        rw [List.drop_succ_cons]
        exact ih h2 j

theorem indexOfSub_some (q : List Char) :
    ∀ t p, indexOfSub q t = some p →
      q.isPrefixOf (t.drop p) = true ∧ p ≤ t.length ∧
      ∀ j, j < p → q.isPrefixOf (t.drop j) = false := by
  intro t
  induction t with
  | nil =>
    intro p h
    unfold indexOfSub at h
    split at h
    · rename_i hp
      have hp0 : p = 0 := ((Option.some.injEq _ _).mp h).symm
      subst hp0
      exact ⟨by simpa using hp, Nat.le_refl 0, fun j hj => absurd hj (Nat.not_lt_zero j)⟩
    · exact absurd h (by simp)
  | cons a t2 ih =>
    intro p h
    unfold indexOfSub at h
    split at h
    · rename_i hp
      have hp0 : p = 0 := ((Option.some.injEq _ _).mp h).symm
      subst hp0
      exact ⟨by simpa using hp, Nat.zero_le _, fun j hj => absurd hj (Nat.not_lt_zero j)⟩
    · rename_i hnp
      cases hio : indexOfSub q t2 with
      | none =>
        rw [hio] at h
        exact absurd h (by simp)
      | some p2 =>
        rw [hio] at h
        simp only [Option.map_some'] at h
        have hp : p = p2 + 1 := ((Option.some.injEq _ _).mp h).symm
        subst hp
        obtain ⟨hpre, hle, hmin⟩ := ih p2 hio
        refine ⟨by rw [List.drop_succ_cons]; exact hpre, by simpa using Nat.succ_le_succ hle, ?_⟩
        intro j hj
        cases j with
        | zero =>
          rw [List.drop_zero]
          cases hq : q.isPrefixOf (a :: t2)
          · rfl
          · exact absurd hq hnp
        | succ j2 =>
          rw [List.drop_succ_cons]
          exact hmin j2 (by omega)

/-- Both sides of a whole-word occurrence at position `i` are bounded by a
string edge or a character the word classifier rejects. -/
def boundedAt (isW : Char → Bool) (t q : List Char) (i : Nat) : Prop :=
  (i = 0 ∨ isW (t.getD (i - 1) ' ') = false) ∧
  (i + q.length = t.length ∨ isW (t.getD (i + q.length) ' ') = false)

/-- The claim's notion of a whole-word match: the query occurs somewhere in
the candidate as a contiguous run bounded on both sides by a string edge or
a non-word character. -/
def wholeWordOccurs (isW : Char → Bool) (t q : List Char) : Prop :=
  ∃ i, i ≤ t.length ∧ q.isPrefixOf (t.drop i) = true ∧ boundedAt isW t q i

theorem boundedAt_iff_bool (isW : Char → Bool) (t q : List Char) (i : Nat) :
    (((i == 0 || !isW (t.getD (i - 1) ' ')) &&
      (i + q.length == t.length || !isW (t.getD (i + q.length) ' '))) = true) ↔
    boundedAt isW t q i := by
  simp [boundedAt, Bool.and_eq_true, Bool.or_eq_true, Bool.not_eq_true',
    beq_iff_eq]

theorem mwwGo_some_true_iff (isW : Char → Bool) (t q : List Char) :
    ∀ fuel idx, t.length + 2 ≤ fuel + idx →
    (matchWholeWordGo isW fuel t q idx = some true ↔
      ∃ i, idx ≤ i ∧ i ≤ t.length ∧ q.isPrefixOf (t.drop i) = true ∧
        boundedAt isW t q i) := by
  intro fuel
  induction fuel with
  | zero =>
    intro idx hfuel
    constructor
    · intro h
      exact absurd h (by simp [matchWholeWordGo])
    · rintro ⟨i, h1, h2, _⟩
      omega
  | succ f ih =>
    intro idx hfuel
    by_cases hidx : idx > t.length
    · constructor
      · intro h
        unfold matchWholeWordGo at h
        rw [if_pos hidx] at h
        exact absurd h (by simp)
      · rintro ⟨i, h1, h2, _⟩
        omega
    · unfold matchWholeWordGo
      rw [if_neg hidx]
      cases hio : indexOfSub q (t.drop idx) with
      | none =>
        constructor
        · intro h
          exact absurd h (by simp)
        · rintro ⟨i, hi1, hi2, hpre, _⟩
          exfalso
          have hn := indexOfSub_none q (t.drop idx) hio (i - idx)
          rw [List.drop_drop, Nat.add_sub_cancel' hi1] at hn
          rw [hpre] at hn
          exact Bool.noConfusion hn
      | some p =>
        dsimp only
        obtain ⟨hpre, hple, hmin⟩ := indexOfSub_some q (t.drop idx) p hio
        rw [List.drop_drop, Nat.add_comm idx p] at hpre
        have hlen : (t.drop idx).length = t.length - idx := List.length_drop _ _
        have hple2 : p + idx ≤ t.length := by omega
        split
        · rename_i hb
          constructor
          · intro _
            exact ⟨p + idx, by omega, hple2, hpre,
              (boundedAt_iff_bool isW t q (p + idx)).mp hb⟩
          · intro _
            rfl
        · rename_i hb
          rw [ih (p + idx + 1) (by omega)]
          constructor
          · rintro ⟨i, hi1, hi2, hpre2, hbd⟩
            exact ⟨i, by omega, hi2, hpre2, hbd⟩
          · rintro ⟨i, hi1, hi2, hpre2, hbd⟩
            refine ⟨i, ?_, hi2, hpre2, hbd⟩
            by_contra hlt
            push_neg at hlt
            have hcase : i < p + idx ∨ i = p + idx := by omega
            rcases hcase with hc | hc
            · have hm := hmin (i - idx) (by omega)
              rw [List.drop_drop, Nat.add_sub_cancel' hi1] at hm
              rw [hpre2] at hm
              exact Bool.noConfusion hm
            · subst hc
              exact hb ((boundedAt_iff_bool isW t q (p + idx)).mpr hbd)

/-- C7: for a non-wildcard query in whole-word mode, the matcher returns
true exactly when the case-adjusted query occurs in the case-adjusted
candidate as a contiguous run bounded on both sides by a string edge or a
character the word classifier rejects (every occurrence position is tried
until one qualifies or all are exhausted). -/
theorem c7_wholeWord (isW : Char → Bool) (low : Char → Char)
    (text query : String) (opts : SearchOptions)
    (hw : hasWildcards query = false) (hww : opts.matchWholeWord = true) :
    (matchesFn isW low text query opts = some true ↔
      wholeWordOccurs isW
        (if opts.caseSensitive then text.toList else text.toList.map low)
        (if opts.caseSensitive then query.toList else query.toList.map low)) := by
  unfold matchesFn
  rw [if_neg (by simp [hw]), if_pos hww]
  unfold matchWholeWord
  rw [mwwGo_some_true_iff isW _ _ _ 0 (by omega)]
  unfold wholeWordOccurs
  constructor
  · rintro ⟨i, _, h2, h3, h4⟩
    exact ⟨i, h2, h3, h4⟩
  · rintro ⟨i, h2, h3, h4⟩
    exact ⟨i, Nat.zero_le i, h2, h3, h4⟩

/-- Witness for C7 at the case-sensitive whole-word search for "test" in
"test file". -/
theorem c7_wholeWord_witness :
    (matchesFn (fun c => c.isAlphanum || c == '_') Char.toLower "test file" "test"
        ⟨"test", true, true, true, true, 0⟩ = some true ↔
      wholeWordOccurs (fun c => c.isAlphanum || c == '_')
        (if (⟨"test", true, true, true, true, 0⟩ : SearchOptions).caseSensitive
         then "test file".toList else "test file".toList.map Char.toLower)
        (if (⟨"test", true, true, true, true, 0⟩ : SearchOptions).caseSensitive
         then "test".toList else "test".toList.map Char.toLower)) :=
  c7_wholeWord (fun c => c.isAlphanum || c == '_') Char.toLower "test file" "test"
    ⟨"test", true, true, true, true, 0⟩ (by decide) rfl

/-- `SearchResult` (search.go lines 21-24). -/
structure SearchResult where
  files : List EntryT
  folders : List EntryT
deriving DecidableEq, Repr

/-- The loaded collections `Database.Files` and `Database.Folders` as the
search engine consumes them (names and, for path search, parent chains). -/
structure DBModel where
  files : List EntryT
  folders : List EntryT
deriving DecidableEq, Repr

/-- File loop of `Database.Search` (search.go lines 41-50): append each
matching file and stop once the file count has reached a positive
`maxResults`; `none` propagates a matcher panic. -/
def searchFilesLoop (p : String → Option Bool) (maxR : Int) :
    List EntryT → List EntryT → Option (List EntryT)
  | [], acc => some acc.reverse
  | f :: rest, acc =>
    match p f.name with
    | none => none
    | some false => searchFilesLoop p maxR rest acc
    | some true =>
        if maxR > 0 ∧ ((f :: acc).length : Int) ≥ maxR then some (f :: acc).reverse
        else searchFilesLoop p maxR rest (f :: acc)

/-- Folder loop of `Database.Search` (search.go lines 53-62): append each
matching folder and stop once the combined folder+file count has reached a
positive `maxResults`. -/
def searchFoldersLoop (p : String → Option Bool) (maxR : Int) (nFiles : Nat) :
    List EntryT → List EntryT → Option (List EntryT)
  | [], acc => some acc.reverse
  | f :: rest, acc =>
    match p f.name with
    | none => none
    | some false => searchFoldersLoop p maxR nFiles rest acc
    | some true =>
        if maxR > 0 ∧ (((f :: acc).length + nFiles : Int)) ≥ maxR
        then some (f :: acc).reverse
        else searchFoldersLoop p maxR nFiles rest (f :: acc)

/-- Model of `Database.Search` (search.go lines 27-65): an empty query
returns the empty result immediately; otherwise files are scanned before
folders, each collection only when its flag is set, with the shared
`maxResults` bound. -/
def search (isW : Char → Bool) (low : Char → Char) (db : DBModel)
    (opts : SearchOptions) : Option SearchResult :=
  if opts.query = "" then some ⟨[], []⟩
  else
    match (if opts.searchInFiles
           then searchFilesLoop (fun nm => matchesFn isW low nm opts.query opts)
                  opts.maxResults db.files []
           else some []) with
    | none => none
    | some fs =>
      match (if opts.searchInFolders
             then searchFoldersLoop (fun nm => matchesFn isW low nm opts.query opts)
                    opts.maxResults fs.length db.folders []
             else some []) with
      | none => none
      | some ds => some ⟨fs, ds⟩

/-- Model of `Database.SearchByPath` (search.go lines 174-244): a wildcard
pattern is compiled once (case-insensitively unless `cs`) and matched
against every entry's full path; without wildcards (or on compile failure)
the possibly lowered pattern is substring-searched in the possibly lowered
path. Both collections are always scanned, with no result bound. -/
def searchByPath (low : Char → Char) (db : DBModel) (pattern : String)
    (cs : Bool) : SearchResult :=
  match (if hasWildcards pattern
         then regexCompileGen (convertWildcardToRegex pattern) else none) with
  | some re =>
      ⟨db.files.filter (fun f => reMatch (!cs) low re (entryGetFullPath f).toList),
       db.folders.filter (fun f => reMatch (!cs) low re (entryGetFullPath f).toList)⟩
  | none =>
      ⟨db.files.filter (fun f => containsSub
          (if cs then (entryGetFullPath f).toList
           else (entryGetFullPath f).toList.map low)
          (if cs then pattern.toList else pattern.toList.map low)),
       db.folders.filter (fun f => containsSub
          (if cs then (entryGetFullPath f).toList
           else (entryGetFullPath f).toList.map low)
          (if cs then pattern.toList else pattern.toList.map low))⟩

theorem containsSub_nil (t : List Char) : containsSub t [] = true := by
  cases t <;> simp [containsSub, indexOfSub, List.isPrefixOf]

/-- C4 counterexample: with an empty query, `SearchByPath` returns every
entry instead of none (the empty pattern substring-matches every path), and
the matcher returns true instead of false (empty-string containment). -/
theorem c4_counterexample :
    (searchByPath id ⟨[⟨0, "a", []⟩], [⟨1, "b", []⟩]⟩ "" false).files =
      [⟨0, "a", []⟩] ∧
    matchesFn (fun c => c.isAlphanum) id "a" "" ⟨"", false, false, true, true, 0⟩ =
      some true := by
  constructor
  · rfl
  · rfl

/-- C4 amended: `Search` with an empty query does return the empty result
immediately; but `SearchByPath` with an empty pattern returns every file and
folder (empty-substring containment), and the matcher returns true for the
empty query whenever whole-word mode is off. -/
theorem c4_amended :
    (∀ isW low db opts, opts.query = "" →
      search isW low db opts = some ⟨[], []⟩) ∧
    (∀ low db cs, searchByPath low db "" cs = ⟨db.files, db.folders⟩) ∧
    (∀ isW low (x : String) opts, opts.matchWholeWord = false →
      matchesFn isW low x "" opts = some true) := by
  refine ⟨?_, ?_, ?_⟩
  · intro isW low db opts hq
    unfold search
    rw [if_pos hq]
  · intro low db cs
    unfold searchByPath
    rw [show (if hasWildcards "" then regexCompileGen (convertWildcardToRegex "")
              else none) = none from rfl]
    dsimp only
    have hpred : ∀ f : EntryT, (containsSub
        (if cs then (entryGetFullPath f).toList
         else (entryGetFullPath f).toList.map low)
        (if cs then ("" : String).toList else ("" : String).toList.map low)) = true := by
      intro f
      cases cs
      · exact containsSub_nil _
      · exact containsSub_nil _
    simp only [SearchResult.mk.injEq]
    exact ⟨List.filter_eq_self.mpr (fun a _ => hpred a),
           List.filter_eq_self.mpr (fun a _ => hpred a)⟩
  · intro isW low x opts hww
    unfold matchesFn
    rw [if_neg (show ¬(hasWildcards "" = true) by decide),
        if_neg (by simp [hww])]
    cases hcs : opts.caseSensitive
    · rw [if_neg (by simp [hcs]), if_neg (by simp [hcs])]
      rw [show (("" : String).toList.map low) = [] from rfl]
      rw [containsSub_nil]
    · rw [if_pos (by simp [hcs]), if_pos (by simp [hcs])]
      rw [show ("" : String).toList = [] from rfl]
      rw [containsSub_nil]

/-- Witness for C4 (amended): `Search` with the empty query on a concrete
database returns the empty result. -/
theorem c4_amended_witness :
    search (fun c => c.isAlphanum) id ⟨[⟨0, "a", []⟩], [⟨1, "b", []⟩]⟩
      ⟨"", false, false, true, true, 0⟩ = some ⟨[], []⟩ :=
  c4_amended.1 (fun c => c.isAlphanum) id ⟨[⟨0, "a", []⟩], [⟨1, "b", []⟩]⟩
    ⟨"", false, false, true, true, 0⟩ rfl

/-- C5 counterexample: with `maxResults = 1`, one matching file and one
matching folder, `Search` returns two results — the folder loop appends
before it re-checks the combined bound, so the combined count exceeds
`maxResults` by one. -/
theorem c5_counterexample :
    search (fun c => c.isAlphanum) id ⟨[⟨0, "t", []⟩], [⟨1, "t", []⟩]⟩
        ⟨"t", true, false, true, true, 1⟩ =
      some ⟨[⟨0, "t", []⟩], [⟨1, "t", []⟩]⟩ ∧
    ¬((([⟨0, "t", []⟩] : List EntryT).length +
        ([⟨1, "t", []⟩] : List EntryT).length : Int) ≤ 1) := by
  exact ⟨rfl, by decide⟩

theorem searchFilesLoop_bound (p : String → Option Bool) (maxR : Int)
    (hmax : 0 < maxR) :
    ∀ l acc out, ((acc.length : Int) < maxR) →
      searchFilesLoop p maxR l acc = some out → ((out.length : Int)) ≤ maxR := by
  intro l
  induction l with
  | nil =>
    intro acc out hacc h
    unfold searchFilesLoop at h
    have hout : acc.reverse = out := (Option.some.injEq _ _).mp h
    rw [← hout]
    rw [List.length_reverse]
    omega
  | cons f rest ih =>
    intro acc out hacc h
    unfold searchFilesLoop at h
    cases hp : p f.name with
    | none =>
      rw [hp] at h
      exact absurd h (by simp)
    | some b =>
      rw [hp] at h
      cases b with
      | false => exact ih acc out hacc h
      | true =>
        dsimp only at h
        split at h
        · rename_i hc
          have hout : (f :: acc).reverse = out := (Option.some.injEq _ _).mp h
          rw [← hout]
          rw [List.length_reverse]
          push_cast [List.length_cons]
          omega
        · rename_i hc
          have hlt : (((f :: acc).length : Int)) < maxR := by
            have h2 : ¬(((f :: acc).length : Int) ≥ maxR) := fun hb => hc ⟨hmax, hb⟩
            push_cast [List.length_cons] at h2 ⊢
            omega
          exact ih (f :: acc) out hlt h

theorem searchFoldersLoop_bound (p : String → Option Bool) (maxR : Int)
    (nFiles : Nat) (hmax : 0 < maxR) :
    ∀ l acc out, searchFoldersLoop p maxR nFiles l acc = some out →
      (((acc.length + nFiles : Int)) ≤ maxR →
        ((out.length + nFiles : Int)) ≤ maxR + 1) ∧
      (((acc.length + nFiles : Int)) < maxR →
        ((out.length + nFiles : Int)) ≤ maxR) := by
  intro l
  induction l with
  | nil =>
    intro acc out h
    unfold searchFoldersLoop at h
    have hout : acc.reverse = out := (Option.some.injEq _ _).mp h
    rw [← hout]
    rw [List.length_reverse]
    constructor
    · intro hle
      omega
    · intro hlt
      omega
  | cons f rest ih =>
    intro acc out h
    unfold searchFoldersLoop at h
    cases hp : p f.name with
    | none =>
      rw [hp] at h
      exact absurd h (by simp)
    | some b =>
      rw [hp] at h
      cases b with
      | false => exact ih acc out h
      | true =>
        dsimp only at h
        split at h
        · rename_i hc
          have hout : (f :: acc).reverse = out := (Option.some.injEq _ _).mp h
          rw [← hout]
          rw [List.length_reverse]
          constructor
          · intro hle
            push_cast [List.length_cons] at hle ⊢
            omega
          · intro hlt
            push_cast [List.length_cons] at hlt ⊢
            omega
        · rename_i hc
          have hlt2 : (((f :: acc).length + nFiles : Int)) < maxR := by
            have h2 : ¬((((f :: acc).length + nFiles : Int)) ≥ maxR) :=
              fun hb => hc ⟨hmax, hb⟩
            push_cast [List.length_cons] at h2 ⊢
            omega
          have hrec := ih (f :: acc) out h
          constructor
          · intro _
            exact hrec.1 (Int.le_of_lt hlt2)
          · intro _
            exact hrec.2 hlt2

theorem searchFilesLoop_unlimited (p : String → Option Bool) :
    ∀ l acc out, searchFilesLoop p 0 l acc = some out →
      out = acc.reverse ++ l.filter (fun f => p f.name == some true) := by
  intro l
  induction l with
  | nil =>
    intro acc out h
    unfold searchFilesLoop at h
    have hout : acc.reverse = out := (Option.some.injEq _ _).mp h
    simp [← hout]
  | cons f rest ih =>
    intro acc out h
    unfold searchFilesLoop at h
    cases hp : p f.name with
    | none =>
      rw [hp] at h
      exact absurd h (by simp)
    | some b =>
      rw [hp] at h
      cases b with
      | false =>
        have hrec := ih acc out h
        rw [hrec, List.filter_cons]
        simp [hp]
      | true =>
        dsimp only at h
        rw [if_neg (by simp)] at h
        have hrec := ih (f :: acc) out h
        rw [hrec, List.filter_cons]
        simp [hp]

theorem searchFoldersLoop_unlimited (p : String → Option Bool) (nFiles : Nat) :
    ∀ l acc out, searchFoldersLoop p 0 nFiles l acc = some out →
      out = acc.reverse ++ l.filter (fun f => p f.name == some true) := by
  intro l
  induction l with
  | nil =>
    intro acc out h
    unfold searchFoldersLoop at h
    have hout : acc.reverse = out := (Option.some.injEq _ _).mp h
    simp [← hout]
  | cons f rest ih =>
    intro acc out h
    unfold searchFoldersLoop at h
    cases hp : p f.name with
    | none =>
      rw [hp] at h
      exact absurd h (by simp)
    | some b =>
      rw [hp] at h
      cases b with
      | false =>
        have hrec := ih acc out h
        rw [hrec, List.filter_cons]
        simp [hp]
      | true =>
        dsimp only at h
        rw [if_neg (by simp)] at h
        have hrec := ih (f :: acc) out h
        rw [hrec, List.filter_cons]
        simp [hp]

/-- C5 amended: with a positive `maxResults` the file count alone never
exceeds the bound, and the combined file+folder count never exceeds the
bound by more than one; it stays within the bound whenever the file scan
alone did not already reach it (the overshoot case of the counterexample:
the folder loop appends once more after the files filled the quota, because
files are scanned before folders). `maxResults = 0` is unlimited: every
matching entry of each enabled collection is returned. -/
theorem c5_amended :
    (∀ isW low db opts r, 0 < opts.maxResults →
      search isW low db opts = some r →
      ((r.files.length : Int) ≤ opts.maxResults ∧
       ((r.files.length + r.folders.length : Int)) ≤ opts.maxResults + 1 ∧
       ((r.files.length : Int) < opts.maxResults →
         ((r.files.length + r.folders.length : Int)) ≤ opts.maxResults))) ∧
    (∀ isW low db opts r, opts.maxResults = 0 → opts.query ≠ "" →
      search isW low db opts = some r →
      (r.files = (if opts.searchInFiles then db.files.filter
          (fun f => matchesFn isW low f.name opts.query opts == some true) else [])) ∧
      (r.folders = (if opts.searchInFolders then db.folders.filter
          (fun f => matchesFn isW low f.name opts.query opts == some true) else []))) := by
  constructor
  · intro isW low db opts r hmax h
    unfold search at h
    by_cases hq : opts.query = ""
    · rw [if_pos hq] at h
      have hr : (⟨[], []⟩ : SearchResult) = r := (Option.some.injEq _ _).mp h
      rw [← hr]
      refine ⟨by simp; omega, by simp; omega, fun _ => by simp; omega⟩
    · rw [if_neg hq] at h
      cases hfs : (if opts.searchInFiles
          then searchFilesLoop (fun nm => matchesFn isW low nm opts.query opts)
                 opts.maxResults db.files []
          else some []) with
      | none =>
        rw [hfs] at h
        exact absurd h (by simp)
      | some fs =>
        rw [hfs] at h
        dsimp only at h
        have hfsb : (fs.length : Int) ≤ opts.maxResults := by
          by_cases hsf : opts.searchInFiles
          · rw [if_pos hsf] at hfs
            exact searchFilesLoop_bound _ _ hmax db.files [] fs (by simpa using hmax) hfs
          · rw [if_neg hsf] at hfs
            have : ([] : List EntryT) = fs := (Option.some.injEq _ _).mp hfs
            rw [← this]
            simp
            omega
        cases hds : (if opts.searchInFolders
            then searchFoldersLoop (fun nm => matchesFn isW low nm opts.query opts)
                   opts.maxResults fs.length db.folders []
            else some []) with
        | none =>
          rw [hds] at h
          exact absurd h (by simp)
        | some ds =>
          rw [hds] at h
          dsimp only at h
          have hr : (⟨fs, ds⟩ : SearchResult) = r := (Option.some.injEq _ _).mp h
          rw [← hr]
          dsimp only
          by_cases hsd : opts.searchInFolders
          · rw [if_pos hsd] at hds
            have hb := searchFoldersLoop_bound _ _ fs.length hmax db.folders [] ds hds
            refine ⟨hfsb, ?_, ?_⟩
            · have h1 := hb.1 (by simpa using hfsb)
              push_cast at h1 ⊢
              omega
            · intro hlt
              have h2 := hb.2 (by simpa using hlt)
              push_cast at h2 ⊢
              omega
          · rw [if_neg hsd] at hds
            have hde : ([] : List EntryT) = ds := (Option.some.injEq _ _).mp hds
            rw [← hde]
            refine ⟨hfsb, ?_, fun _ => ?_⟩ <;> simp <;> omega
  · intro isW low db opts r hzero hq h
    unfold search at h
    rw [if_neg hq] at h
    cases hfs : (if opts.searchInFiles
        then searchFilesLoop (fun nm => matchesFn isW low nm opts.query opts)
               opts.maxResults db.files []
        else some []) with
    | none =>
      rw [hfs] at h
      exact absurd h (by simp)
    | some fs =>
      rw [hfs] at h
      dsimp only at h
      have hfseq : fs = (if opts.searchInFiles then db.files.filter
          (fun f => matchesFn isW low f.name opts.query opts == some true) else []) := by
        by_cases hsf : opts.searchInFiles
        · rw [if_pos hsf] at hfs ⊢
          rw [hzero] at hfs
          simpa using searchFilesLoop_unlimited _ db.files [] fs hfs
        · rw [if_neg hsf] at hfs ⊢
          exact ((Option.some.injEq _ _).mp hfs).symm
      cases hds : (if opts.searchInFolders
          then searchFoldersLoop (fun nm => matchesFn isW low nm opts.query opts)
                 opts.maxResults fs.length db.folders []
          else some []) with
      | none =>
        rw [hds] at h
        exact absurd h (by simp)
      | some ds =>
        rw [hds] at h
        dsimp only at h
        have hr : (⟨fs, ds⟩ : SearchResult) = r := (Option.some.injEq _ _).mp h
        have hdseq : ds = (if opts.searchInFolders then db.folders.filter
            (fun f => matchesFn isW low f.name opts.query opts == some true) else []) := by
          by_cases hsd : opts.searchInFolders
          · rw [if_pos hsd] at hds ⊢
            rw [hzero] at hds
            simpa using searchFoldersLoop_unlimited _ fs.length db.folders [] ds hds
          · rw [if_neg hsd] at hds ⊢
            exact ((Option.some.injEq _ _).mp hds).symm
        rw [← hr]
        exact ⟨hfseq, hdseq⟩

/-- Witness for C5 (amended) at the counterexample input: with
`maxResults = 1` and the two-entry result actually returned, the combined
count obeys the `maxResults + 1` bound. -/
theorem c5_amended_witness :
    (((⟨[⟨0, "t", []⟩], [⟨1, "t", []⟩]⟩ : SearchResult).files.length : Int) ≤ 1 ∧
     (((⟨[⟨0, "t", []⟩], [⟨1, "t", []⟩]⟩ : SearchResult).files.length +
       (⟨[⟨0, "t", []⟩], [⟨1, "t", []⟩]⟩ : SearchResult).folders.length : Int)) ≤ 1 + 1 ∧
     (((⟨[⟨0, "t", []⟩], [⟨1, "t", []⟩]⟩ : SearchResult).files.length : Int) < 1 →
      (((⟨[⟨0, "t", []⟩], [⟨1, "t", []⟩]⟩ : SearchResult).files.length +
        (⟨[⟨0, "t", []⟩], [⟨1, "t", []⟩]⟩ : SearchResult).folders.length : Int)) ≤ 1)) :=
  c5_amended.1 (fun c => c.isAlphanum) id ⟨[⟨0, "t", []⟩], [⟨1, "t", []⟩]⟩
    ⟨"t", true, false, true, true, 1⟩ ⟨[⟨0, "t", []⟩], [⟨1, "t", []⟩]⟩
    (by decide) rfl
